import Mathlib

/-!
Verification of the filtering-and-graph-metrics pipeline of
`PIP_interaction.py` (protein-protein interaction analysis).

The script loads a table of interaction rows (two protein labels and an
optional confidence score), applies an adaptive threshold filter, builds an
undirected `networkx` graph, computes per-node metrics (degree, betweenness
centrality, clustering coefficient) and ranks the nodes.

The shallow embedding below models a table row as a `Row` (labels are
strings, the score is an optional rational; a pandas `NaN` score is `none`,
and `NaN > t` is false, matching pandas comparison semantics).  The graph
built by `nx.from_pandas_edgelist` is represented by its node list (insertion
order), its edge set (a `Finset` of unordered pairs, so duplicate rows and
reversed duplicates collapse), and the derived adjacency.  `networkx` graphs
retain self-loop edges, and a self-loop contributes 2 to the degree of its
node; this is reproduced faithfully.
-/

namespace PIP

/-- A row of the interaction table: two endpoint labels and an optional
numeric score (`none` models a missing value / pandas `NaN`). -/
structure Row where
  a : String
  b : String
  score : Option ℚ
deriving DecidableEq, Repr

/-! ### Adaptive filter (lines 37-49 of the script) -/

/-- The fixed descending candidate threshold list of the script. -/
def thresholds : List ℚ := [700, 400, 0]

/-- `df[score_col] > t` for a single row: a missing score (pandas `NaN`)
compares false. -/
def rowPass (t : ℚ) (r : Row) : Bool :=
  match r.score with
  | some w => decide (t < w)
  | none => false

/-- `df[df[score_col] > t]`. -/
def filterAt (rows : List Row) (t : ℚ) : List Row :=
  rows.filter (rowPass t)

/-- The threshold at which the `for`-loop breaks: the first candidate whose
filtered subset is nonempty (`none` when the loop falls through to `else`). -/
def chosenThreshold (rows : List Row) : Option ℚ :=
  thresholds.find? (fun t => !(filterAt rows t).isEmpty)

/-- The dataframe after the filtering section.  When a score column exists
the loop replaces `df` by the first nonempty filtered subset; when every
candidate threshold yields an empty subset the `for`-`else` branch only
prints a warning and `df` keeps all original rows.  Without a score column
filtering is skipped entirely. -/
def filterStage (scoreCol : Bool) (rows : List Row) : List Row :=
  if scoreCol then
    match chosenThreshold rows with
    | some t => filterAt rows t
    | none => rows
  else rows

/-! ### Pipeline outcome (lines 52-64 of the script) -/

/-- Outcome of the script after the empty-dataframe check: either the single
explanatory record (`network_summary.xlsx` containing only the message
"No interactions found after filtering") or the normal analysis run on the
dataframe `used` handed to the graph builder. -/
inductive PipeOutput where
  | emptyReport
  | report (used : List Row)
deriving DecidableEq, Repr

/-- Control flow of the script: filter, then the `df.empty` check (which
exits with the explanatory record), otherwise the graph is built from the
surviving rows. -/
def runPipeline (scoreCol : Bool) (rows : List Row) : PipeOutput :=
  let d := filterStage scoreCol rows
  if d.isEmpty then PipeOutput.emptyReport else PipeOutput.report d

/-! ### Graph construction

Modelled from the spec: the Graph Builder (`nx.from_pandas_edgelist` into an
undirected `networkx.Graph`, a library whose source is not part of this
repository).  Each row adds its two endpoints as nodes (insertion order) and
the unordered endpoint pair as an edge; an unordered pair occurring several
times (also reversed) is stored once.  Unlike the spec's narrative,
`networkx.Graph` keeps self-loop edges, so no self-loop dropping is
modelled; the spec's contrary sentence is assessed at claim C3. -/

/-- Append a label to the node list if it is not already present. -/
def addNode (acc : List String) (x : String) : List String :=
  if x ∈ acc then acc else acc ++ [x]

/-- Node labels in `networkx` insertion order: for each row, endpoint `a`
then endpoint `b` is appended if not already present. -/
def nodesOf (rows : List Row) : List String :=
  rows.foldl (fun acc r => addNode (addNode acc r.a) r.b) []

/-- The set of undirected edges of the built graph. -/
def edgeFinset (rows : List Row) : Finset (Sym2 String) :=
  (rows.map (fun r => s(r.a, r.b))).toFinset

/-- The set of nodes of the built graph. -/
def nodeFinset (rows : List Row) : Finset String :=
  (nodesOf rows).toFinset

/-- `G.neighbors v` as a set: all nodes `u` with an edge `{v, u}` (this
includes `v` itself when `v` carries a self-loop, as in `networkx`). -/
def neighborFinset (rows : List Row) (v : String) : Finset String :=
  (nodeFinset rows).filter (fun u => s(v, u) ∈ edgeFinset rows)

/-- `len(list(G.neighbors(v)))`, the `Number_of_Interactions` column. -/
def neighborCount (rows : List Row) (v : String) : ℕ :=
  (neighborFinset rows v).card

/-- `G.degree(v)` in `networkx`: the number of adjacent nodes, plus one more
if `v` has a self-loop (a self-loop counts twice). -/
def degreeOf (rows : List Row) (v : String) : ℕ :=
  neighborCount rows v + (if s(v, v) ∈ edgeFinset rows then 1 else 0)

/-! ### Betweenness centrality

Modelled from the spec: `nx.betweenness_centrality` (library code, not part
of this repository).  For each node `v`, the pair dependencies
`sigma(s,t|v)/sigma(s,t)` are accumulated over all ordered pairs `(s,t)` of
nodes distinct from `v` and from each other; pairs with no connecting path
contribute zero.  For `n > 2` nodes the accumulated value is rescaled by
`1/((n-1)(n-2))` (undirected normalized form, which equals the unordered-pair
sum divided by `(n-1)(n-2)/2`); for `n ≤ 2` no rescaling happens and the
accumulated value is already zero.  Shortest paths are unweighted; a
shortest walk never repeats a node, so paths are enumerated as duplicate-free
label lists with consecutive adjacency. -/

/-- Adjacency test of the built graph. -/
def adjB (rows : List Row) (u v : String) : Bool :=
  decide (s(u, v) ∈ edgeFinset rows)

/-- Consecutive-adjacency test for a list of labels. -/
def chainB (adj : String → String → Bool) : List String → Bool
  | [] => true
  | [_] => true
  | u :: v :: l => adj u v && chainB adj (v :: l)

/-- All lists of distinct elements of `V` with length at most the fuel
argument: the empty list, or a head `x ∈ V` followed by such a list over
`V.erase x`. -/
def nodupSeqs (V : List String) : ℕ → List (List String)
  | 0 => [[]]
  | n + 1 => [] :: V.flatMap (fun x => (nodupSeqs (V.erase x) n).map (x :: ·))

/-- All duplicate-free lists over the node list `V` (each such list occurs
at least once; it is collected into a `Finset` below).  A duplicate-free
list over `V` has length at most `V.length`. -/
def nodupLists (V : List String) : List (List String) :=
  nodupSeqs V V.length

/-- Is `l` a simple path from `s` to `t` in the built graph? -/
def isPathB (rows : List Row) (st : String × String) (l : List String) : Bool :=
  l.head? == some st.1 && l.getLast? == some st.2
    && chainB (adjB rows) l && decide l.Nodup

/-- All simple paths from `s` to `t`. -/
def pathFinset (rows : List Row) (st : String × String) : Finset (List String) :=
  ((nodupLists (nodesOf rows)).filter (isPathB rows st)).toFinset

/-- The shortest paths from `s` to `t`: the simple paths of minimal length. -/
def shortestPaths (rows : List Row) (st : String × String) : Finset (List String) :=
  (pathFinset rows st).filter
    (fun l => ∀ m ∈ pathFinset rows st, l.length ≤ m.length)

/-- `sigma(s,t)`: the number of shortest `s`-`t` paths. -/
def sigma (rows : List Row) (st : String × String) : ℕ :=
  (shortestPaths rows st).card

/-- `sigma(s,t|v)`: the number of shortest `s`-`t` paths passing through
`v`. -/
def sigmaThrough (rows : List Row) (v : String) (st : String × String) : ℕ :=
  ((shortestPaths rows st).filter (fun l => v ∈ l)).card

/-- Pair dependency of `(s,t)` on `v`; an unreachable pair (`sigma = 0`)
contributes zero. -/
def pairDep (rows : List Row) (v : String) (st : String × String) : ℚ :=
  if sigma rows st = 0 then 0
  else (sigmaThrough rows v st : ℚ) / (sigma rows st : ℚ)

/-- The raw (unnormalized) betweenness accumulation over ordered pairs. -/
def rawBetweenness (rows : List Row) (v : String) : ℚ :=
  ∑ s ∈ nodeFinset rows, ∑ t ∈ nodeFinset rows,
    if s ≠ v ∧ t ≠ v ∧ s ≠ t then pairDep rows v (s, t) else 0

/-- `nx.betweenness_centrality(G)[v]` (normalized, undirected). -/
def betweenness (rows : List Row) (v : String) : ℚ :=
  if (nodesOf rows).length ≤ 2 then rawBetweenness rows v
  else
    rawBetweenness rows v /
      ((((nodesOf rows).length : ℚ) - 1) * (((nodesOf rows).length : ℚ) - 2))

/-! ### Clustering coefficient

Modelled from the spec: `nx.clustering` (library code, not part of this
repository).  For a node `v` let `N*(v)` be its neighbors other than itself
(`networkx` ignores self-loops here).  With `d = |N*(v)|` and
`t(v) = Σ_{w ∈ N*(v)} |N*(v) ∩ N*(w)|` (twice the number of triangles at
`v`), the coefficient is `t(v) / (d (d-1))`, and `0` when `t(v) = 0`. -/

/-- The neighbors of `v` other than `v` itself. -/
def nbrsStar (rows : List Row) (v : String) : Finset String :=
  (neighborFinset rows v).erase v

/-- Twice the number of triangles through `v`. -/
def triangles2 (rows : List Row) (v : String) : ℕ :=
  ∑ w ∈ nbrsStar rows v, ((nbrsStar rows v) ∩ (nbrsStar rows w)).card

/-- `nx.clustering(G)[v]`. -/
def clustering (rows : List Row) (v : String) : ℚ :=
  if triangles2 rows v = 0 then 0
  else
    (triangles2 rows v : ℚ) /
      (((nbrsStar rows v).card : ℚ) * (((nbrsStar rows v).card : ℚ) - 1))

/-! ### Summary table and ranker (lines 74-95 of the script) -/

/-- One row of the `Summary` sheet. -/
structure SummaryRow where
  protein : String
  degree : ℕ
  betweenness : ℚ
  clustering : ℚ
  interactions : ℕ
deriving DecidableEq, Repr

/-- The summary dataframe, one row per graph node in node order. -/
def summaryRows (rows : List Row) : List SummaryRow :=
  (nodesOf rows).map fun v =>
    ⟨v, degreeOf rows v, betweenness rows v, clustering rows v,
      neighborCount rows v⟩

/-- The two-key sort order of `sort_values(by=["Degree",
"Number_of_Interactions"], ascending=[False, False])`: degree descending,
then interaction count descending. -/
def rankRel (x y : SummaryRow) : Prop :=
  y.degree < x.degree ∨ (x.degree = y.degree ∧ y.interactions ≤ x.interactions)

instance : DecidableRel rankRel := fun x y => by
  unfold rankRel; infer_instance

instance : IsTotal SummaryRow rankRel := by
  constructor
  intro x y
  unfold rankRel
  omega

instance : IsTrans SummaryRow rankRel := by
  constructor
  intro x y z hxy hyz
  unfold rankRel at hxy hyz ⊢
  omega

/-- The single-key order of `nlargest(k, "Degree")`: degree descending. -/
def degRel (x y : SummaryRow) : Prop :=
  y.degree ≤ x.degree

instance : DecidableRel degRel := fun x y => by
  unfold degRel; infer_instance

/-- The sorted `Summary` sheet. -/
def summarySorted (rows : List Row) : List SummaryRow :=
  (summaryRows rows).insertionSort rankRel

/-- `summary_df.nlargest(k, "Degree")`: the first `k` rows in
degree-descending order. -/
def topK (k : ℕ) (rows : List Row) : List SummaryRow :=
  ((summaryRows rows).insertionSort degRel).take k

/-! ### Auxiliary predicates on unordered pairs -/

/-- Are both endpoints of the unordered pair `e` in `S`? -/
def bothIn (S : Finset String) : Sym2 String → Bool :=
  Sym2.lift
    ⟨fun x y => decide (x ∈ S) && decide (y ∈ S), by
      intro x y
      exact Bool.and_comm _ _⟩

/-- Is the unordered pair `e` a self-loop (both endpoints equal)? -/
def diagB : Sym2 String → Bool :=
  Sym2.lift
    ⟨fun x y => decide (x = y), by
      intro x y
      simp [eq_comm]⟩

/-- The number of edges of the built graph with both endpoints in `S` (the
reading of "edges present among `v`'s neighbors" used by the spec when `S`
is the neighbor set of `v`). -/
def edgesWithin (rows : List Row) (S : Finset String) : ℕ :=
  ((edgeFinset rows).filter (fun e => bothIn S e)).card

@[simp] theorem bothIn_mk (S : Finset String) (x y : String) :
    bothIn S (s(x, y)) = (decide (x ∈ S) && decide (y ∈ S)) := rfl

@[simp] theorem diagB_mk (x y : String) :
    diagB (s(x, y)) = decide (x = y) := rfl

/-! ### Basic facts about the built graph -/

@[simp] theorem mem_addNode {acc : List String} {x y : String} :
    y ∈ addNode acc x ↔ y ∈ acc ∨ y = x := by
  rw [addNode]
  split
  · simp only [iff_self_or]
    rintro rfl
    assumption
  · simp

theorem nodup_addNode {acc : List String} {x : String} (h : acc.Nodup) :
    (addNode acc x).Nodup := by
  rw [addNode]
  split
  · exact h
  · simp only [List.nodup_append, h, List.nodup_cons, List.not_mem_nil,
      not_false_iff, List.nodup_nil, and_true, true_and]
    simp_all [List.disjoint_singleton]

theorem mem_foldl_nodes (rows : List Row) (acc : List String) (x : String) :
    x ∈ rows.foldl (fun acc r => addNode (addNode acc r.a) r.b) acc
      ↔ x ∈ acc ∨ ∃ r ∈ rows, x = r.a ∨ x = r.b := by
  induction rows generalizing acc with
  | nil => simp
  | cons r rows ih =>
    simp only [List.foldl_cons, ih, List.mem_cons, mem_addNode]
    constructor
    · rintro (((h | h) | h) | ⟨r', hr', h⟩)
      · exact Or.inl h
      · exact Or.inr ⟨r, Or.inl rfl, Or.inl h⟩
      · exact Or.inr ⟨r, Or.inl rfl, Or.inr h⟩
      · exact Or.inr ⟨r', Or.inr hr', h⟩
    · rintro (h | ⟨r', hr' | hr', h⟩)
      · exact Or.inl (Or.inl (Or.inl h))
      · subst hr'
        rcases h with h | h
        · exact Or.inl (Or.inl (Or.inr h))
        · exact Or.inl (Or.inr h)
      · exact Or.inr ⟨r', hr', h⟩

theorem mem_nodesOf {rows : List Row} {x : String} :
    x ∈ nodesOf rows ↔ ∃ r ∈ rows, x = r.a ∨ x = r.b := by
  rw [nodesOf, mem_foldl_nodes]
  simp

theorem nodup_nodesOf (rows : List Row) : (nodesOf rows).Nodup := by
  rw [nodesOf]
  generalize hacc : ([] : List String) = acc
  have h : acc.Nodup := by rw [← hacc]; exact List.nodup_nil
  clear hacc
  induction rows generalizing acc with
  | nil => simpa
  | cons r rows ih => exact ih _ (nodup_addNode (nodup_addNode h))

theorem mem_edgeFinset {rows : List Row} {e : Sym2 String} :
    e ∈ edgeFinset rows ↔ ∃ r ∈ rows, e = s(r.a, r.b) := by
  rw [edgeFinset]
  simp [eq_comm]

theorem endpoints_mem_nodes {rows : List Row} {x y : String}
    (h : s(x, y) ∈ edgeFinset rows) : x ∈ nodesOf rows ∧ y ∈ nodesOf rows := by
  rcases mem_edgeFinset.mp h with ⟨r, hr, he⟩
  rcases Sym2.eq_iff.mp he with ⟨hx, hy⟩ | ⟨hx, hy⟩ <;>
    exact ⟨mem_nodesOf.mpr ⟨r, hr, by tauto⟩, mem_nodesOf.mpr ⟨r, hr, by tauto⟩⟩

theorem card_nodeFinset (rows : List Row) :
    (nodeFinset rows).card = (nodesOf rows).length := by
  rw [nodeFinset, List.toFinset_card_of_nodup (nodup_nodesOf rows)]

/-! ### Double counting adjacent pairs inside a vertex set

For any vertex set `S` and edge set `E`, counting (ordered) adjacent pairs
inside `S` counts every non-loop edge within `S` twice and every loop within
`S` once.  This single lemma yields both the handshake identity and the
relation between the `networkx` triangle count and the number of edges among
a node's neighbors. -/

theorem card_filter_pair_diag (S : Finset String) (w x : String) :
    (S.filter (fun u => s(w, u) = s(x, x))).card
      = if w = x ∧ x ∈ S then 1 else 0 := by
  by_cases hw : w = x
  · have h : S.filter (fun u => s(w, u) = s(x, x))
        = S.filter (fun u => u = x) := by
      apply Finset.filter_congr
      intro u _
      rw [Sym2.eq_iff]
      constructor
      · rintro (⟨_, h2⟩ | ⟨_, h2⟩) <;> exact h2
      · rintro rfl
        exact Or.inl ⟨hw, rfl⟩
    rw [h, Finset.filter_eq']
    by_cases hx : x ∈ S <;> simp [hw, hx]
  · have h : S.filter (fun u => s(w, u) = s(x, x)) = ∅ := by
      rw [Finset.filter_eq_empty_iff]
      intro u _
      rw [Sym2.eq_iff]
      tauto
    simp [h, hw]

theorem card_filter_pair_offdiag (S : Finset String) (w x y : String)
    (hxy : x ≠ y) :
    (S.filter (fun u => s(w, u) = s(x, y))).card
      = (if w = x ∧ y ∈ S then 1 else 0) + (if w = y ∧ x ∈ S then 1 else 0) := by
  by_cases hwx : w = x
  · have h : S.filter (fun u => s(w, u) = s(x, y))
        = S.filter (fun u => u = y) := by
      apply Finset.filter_congr
      intro u _
      rw [Sym2.eq_iff]
      constructor
      · rintro (⟨_, h2⟩ | ⟨h1, _⟩)
        · exact h2
        · exact absurd (hwx.symm.trans h1) hxy
      · rintro rfl
        exact Or.inl ⟨hwx, rfl⟩
    have hwy : ¬ (w = y ∧ x ∈ S) := fun hc => hxy (hwx.symm.trans hc.1)
    rw [h, Finset.filter_eq', if_neg hwy]
    by_cases hy : y ∈ S <;> simp [hwx, hy]
  · by_cases hwy : w = y
    · have h : S.filter (fun u => s(w, u) = s(x, y))
          = S.filter (fun u => u = x) := by
        apply Finset.filter_congr
        intro u _
        rw [Sym2.eq_iff]
        constructor
        · rintro (⟨h1, _⟩ | ⟨_, h2⟩)
          · exact absurd h1 hwx
          · exact h2
        · rintro rfl
          exact Or.inr ⟨hwy, rfl⟩
      have hwx2 : ¬ (w = x ∧ y ∈ S) := fun hc => hwx hc.1
      rw [h, Finset.filter_eq', if_neg hwx2]
      by_cases hx : x ∈ S <;> simp [hwy, hx]
    · have h : S.filter (fun u => s(w, u) = s(x, y)) = ∅ := by
        rw [Finset.filter_eq_empty_iff]
        intro u _
        rw [Sym2.eq_iff]
        tauto
      simp [h, hwx, hwy]

theorem sum_card_filter_adj (S : Finset String) (E : Finset (Sym2 String)) :
    ∑ w ∈ S, (S.filter (fun u => s(w, u) ∈ E)).card
      = 2 * (E.filter (fun e => bothIn S e ∧ ¬ diagB e)).card
        + (E.filter (fun e => bothIn S e ∧ diagB e)).card := by
  induction E using Finset.induction_on with
  | empty => simp
  | @insert e E he ih =>
    revert he
    induction e using Sym2.ind with
    | _ x y =>
      intro he
      have key : ∀ w,
          (S.filter (fun u => s(w, u) ∈ insert (s(x, y)) E)).card
            = (S.filter (fun u => s(w, u) = s(x, y))).card
              + (S.filter (fun u => s(w, u) ∈ E)).card := by
        intro w
        have hsplit :
            S.filter (fun u => s(w, u) ∈ insert (s(x, y)) E)
              = S.filter (fun u => s(w, u) = s(x, y))
                ∪ S.filter (fun u => s(w, u) ∈ E) := by
          ext u
          simp only [Finset.mem_filter, Finset.mem_union, Finset.mem_insert]
          tauto
        rw [hsplit, Finset.card_union_of_disjoint]
        rw [Finset.disjoint_left]
        intro u hu h2
        rw [Finset.mem_filter] at hu h2
        exact he (hu.2 ▸ h2.2)
      rw [Finset.sum_congr rfl (fun w _ => key w), Finset.sum_add_distrib, ih]
      have hsa : ∀ z z' : String,
          (∑ w ∈ S, if w = z ∧ z' ∈ S then 1 else 0)
            = if z ∈ S ∧ z' ∈ S then 1 else 0 := by
        intro z z'
        by_cases hz' : z' ∈ S
        · simp only [hz', and_true]
          rw [Finset.sum_ite_eq' S z (fun _ => 1)]
        · simp [hz']
      by_cases hxy : x = y
      · subst hxy
        rw [Finset.sum_congr rfl
          (fun w _ => card_filter_pair_diag S w x), hsa]
        have h1 : (insert s(x, x) E).filter (fun e => bothIn S e ∧ ¬ diagB e)
            = E.filter (fun e => bothIn S e ∧ ¬ diagB e) := by
          rw [Finset.filter_insert, if_neg]
          simp
        rw [h1]
        by_cases hx : x ∈ S
        · have h2 : (insert s(x, x) E).filter (fun e => bothIn S e ∧ diagB e)
              = insert (s(x, x)) (E.filter (fun e => bothIn S e ∧ diagB e)) := by
            rw [Finset.filter_insert, if_pos]
            simp [hx]
          rw [h2, Finset.card_insert_of_not_mem
            (fun hc => he (Finset.mem_of_mem_filter _ hc))]
          simp [hx]
          omega
        · have h2 : (insert s(x, x) E).filter (fun e => bothIn S e ∧ diagB e)
              = E.filter (fun e => bothIn S e ∧ diagB e) := by
            rw [Finset.filter_insert, if_neg]
            simp [hx]
          rw [h2]
          simp [hx]
      · rw [Finset.sum_congr rfl
          (fun w _ => card_filter_pair_offdiag S w x y hxy),
          Finset.sum_add_distrib, hsa, hsa]
        have h2 : (insert s(x, y) E).filter (fun e => bothIn S e ∧ diagB e)
            = E.filter (fun e => bothIn S e ∧ diagB e) := by
          rw [Finset.filter_insert, if_neg]
          simp [hxy]
        rw [h2]
        by_cases hx : x ∈ S <;> by_cases hy : y ∈ S
        · have h1 : (insert s(x, y) E).filter (fun e => bothIn S e ∧ ¬ diagB e)
              = insert (s(x, y)) (E.filter (fun e => bothIn S e ∧ ¬ diagB e)) := by
            rw [Finset.filter_insert, if_pos]
            simp [hx, hy, hxy]
          rw [h1, Finset.card_insert_of_not_mem
            (fun hc => he (Finset.mem_of_mem_filter _ hc))]
          simp [hx, hy]
          omega
        all_goals
          have h1 : (insert s(x, y) E).filter (fun e => bothIn S e ∧ ¬ diagB e)
              = E.filter (fun e => bothIn S e ∧ ¬ diagB e) := by
            rw [Finset.filter_insert, if_neg]
            simp [hx, hy]
        all_goals rw [h1]; simp [hx, hy]

theorem bothIn_nodes {rows : List Row} {e : Sym2 String}
    (he : e ∈ edgeFinset rows) : bothIn (nodeFinset rows) e = true := by
  revert he
  induction e using Sym2.ind with
  | _ x y =>
    intro he
    have h := endpoints_mem_nodes he
    simp [nodeFinset, List.mem_toFinset, h.1, h.2]

/-- Handshake: the degrees of the built graph sum to twice the edge count
(a self-loop contributes 2 to its endpoint's degree and 1 to the edge
count). -/
theorem sum_degree_eq_twice_card_edges (rows : List Row) :
    ∑ v ∈ nodeFinset rows, degreeOf rows v = 2 * (edgeFinset rows).card := by
  have hsupp : ∀ e ∈ edgeFinset rows, bothIn (nodeFinset rows) e = true :=
    fun _ he => bothIn_nodes he
  have hsum :
      ∑ v ∈ nodeFinset rows, degreeOf rows v
        = (∑ v ∈ nodeFinset rows,
            ((nodeFinset rows).filter
              (fun u => s(v, u) ∈ edgeFinset rows)).card)
          + ∑ v ∈ nodeFinset rows,
              (if s(v, v) ∈ edgeFinset rows then 1 else 0) := by
    rw [← Finset.sum_add_distrib]
    rfl
  rw [hsum, sum_card_filter_adj]
  have hfcongr1 :
      (edgeFinset rows).filter (fun e => bothIn (nodeFinset rows) e ∧ ¬ diagB e)
        = (edgeFinset rows).filter (fun e => ¬ diagB e) :=
    Finset.filter_congr (fun e he => by simp [hsupp e he])
  have hfcongr2 :
      (edgeFinset rows).filter (fun e => bothIn (nodeFinset rows) e ∧ diagB e)
        = (edgeFinset rows).filter (fun e => diagB e) :=
    Finset.filter_congr (fun e he => by simp [hsupp e he])
  have hloopcount :
      (∑ v ∈ nodeFinset rows,
          (if s(v, v) ∈ edgeFinset rows then 1 else 0))
        = ((edgeFinset rows).filter (fun e => diagB e)).card := by
    rw [← Finset.card_filter]
    apply Finset.card_bij
      (fun v _ => s(v, v))
      (fun v hv => by
        rw [Finset.mem_filter] at hv
        rw [Finset.mem_filter]
        exact ⟨hv.2, by simp⟩)
      (fun v hv v' hv' h => by
        rcases Sym2.eq_iff.mp h with ⟨h1, _⟩ | ⟨h1, _⟩ <;> exact h1)
    intro e he
    rw [Finset.mem_filter] at he
    revert he
    induction e using Sym2.ind with
    | _ x y =>
      intro he
      have hxy : x = y := by simpa using he.2
      subst hxy
      refine ⟨x, ?_, rfl⟩
      rw [Finset.mem_filter]
      exact ⟨by
        rw [nodeFinset, List.mem_toFinset]
        exact (endpoints_mem_nodes he.1).1, he.1⟩
  rw [hfcongr1, hfcongr2, hloopcount]
  have hcardsplit :
      ((edgeFinset rows).filter (fun e => ¬ diagB e)).card
        + ((edgeFinset rows).filter (fun e => diagB e)).card
        = (edgeFinset rows).card := by
    rw [Nat.add_comm]
    exact Finset.filter_card_add_filter_neg_card_eq_card (fun e => diagB e)
  omega

/-! ### Graphs without self-loops -/

theorem diagB_eq_false_of_loopless {rows : List Row}
    (H : ∀ r ∈ rows, r.a ≠ r.b) {e : Sym2 String}
    (he : e ∈ edgeFinset rows) : diagB e = false := by
  rcases mem_edgeFinset.mp he with ⟨r, hr, rfl⟩
  simpa using H r hr

theorem loop_not_mem_of_loopless {rows : List Row}
    (H : ∀ r ∈ rows, r.a ≠ r.b) (v : String) :
    s(v, v) ∉ edgeFinset rows := by
  intro hc
  have := diagB_eq_false_of_loopless H hc
  simp at this

theorem degree_eq_neighborCount_of_loopless {rows : List Row}
    (H : ∀ r ∈ rows, r.a ≠ r.b) (v : String) :
    degreeOf rows v = neighborCount rows v := by
  rw [degreeOf, if_neg (loop_not_mem_of_loopless H v), Nat.add_zero]

theorem nbrsStar_eq_neighborFinset_of_loopless {rows : List Row}
    (H : ∀ r ∈ rows, r.a ≠ r.b) (v : String) :
    nbrsStar rows v = neighborFinset rows v := by
  rw [nbrsStar]
  apply Finset.erase_eq_of_not_mem
  rw [neighborFinset, Finset.mem_filter]
  rintro ⟨-, hc⟩
  exact loop_not_mem_of_loopless H v hc

theorem triangles2_eq_sum_filter_of_loopless {rows : List Row}
    (H : ∀ r ∈ rows, r.a ≠ r.b) (v : String) :
    triangles2 rows v
      = ∑ w ∈ neighborFinset rows v,
          ((neighborFinset rows v).filter
            (fun u => s(w, u) ∈ edgeFinset rows)).card := by
  rw [triangles2, nbrsStar_eq_neighborFinset_of_loopless H]
  apply Finset.sum_congr rfl
  intro w hw
  congr 1
  ext u
  rw [Finset.mem_inter, Finset.mem_filter]
  constructor
  · rintro ⟨h1, h2⟩
    rw [nbrsStar, Finset.mem_erase, neighborFinset, Finset.mem_filter] at h2
    exact ⟨h1, h2.2.2⟩
  · rintro ⟨h1, h2⟩
    refine ⟨h1, ?_⟩
    rw [nbrsStar, Finset.mem_erase]
    constructor
    · intro hww
      subst hww
      exact loop_not_mem_of_loopless H _ h2
    · rw [neighborFinset, Finset.mem_filter]
      refine ⟨?_, h2⟩
      exact Finset.mem_of_mem_filter u h1

/-- In a loopless graph, the `networkx` triangle accumulation at `v` counts
every edge among `v`'s neighbors exactly twice. -/
theorem triangles2_eq_twice_edgesWithin_of_loopless {rows : List Row}
    (H : ∀ r ∈ rows, r.a ≠ r.b) (v : String) :
    triangles2 rows v
      = 2 * edgesWithin rows (neighborFinset rows v) := by
  rw [triangles2_eq_sum_filter_of_loopless H, sum_card_filter_adj]
  have h1 : (edgeFinset rows).filter
        (fun e => bothIn (neighborFinset rows v) e ∧ ¬ diagB e)
      = (edgeFinset rows).filter
        (fun e => bothIn (neighborFinset rows v) e) :=
    Finset.filter_congr
      (fun e he => by simp [diagB_eq_false_of_loopless H he])
  have h2 : (edgeFinset rows).filter
        (fun e => bothIn (neighborFinset rows v) e ∧ diagB e) = ∅ := by
    rw [Finset.filter_eq_empty_iff]
    intro e he
    simp [diagB_eq_false_of_loopless H he]
  rw [h1, h2, edgesWithin]
  simp

theorem triangles2_le_of_loopless {rows : List Row}
    (H : ∀ r ∈ rows, r.a ≠ r.b) (v : String) :
    triangles2 rows v
      ≤ (neighborFinset rows v).card * ((neighborFinset rows v).card - 1) := by
  rw [triangles2_eq_sum_filter_of_loopless H]
  calc
    ∑ w ∈ neighborFinset rows v,
        ((neighborFinset rows v).filter
          (fun u => s(w, u) ∈ edgeFinset rows)).card
      ≤ ∑ _w ∈ neighborFinset rows v, ((neighborFinset rows v).card - 1) := by
        apply Finset.sum_le_sum
        intro w hw
        have hsub : (neighborFinset rows v).filter
              (fun u => s(w, u) ∈ edgeFinset rows)
            ⊆ (neighborFinset rows v).erase w := by
          intro u hu
          rw [Finset.mem_filter] at hu
          rw [Finset.mem_erase]
          constructor
          · rintro rfl
            exact loop_not_mem_of_loopless H u hu.2
          · exact hu.1
        calc
          ((neighborFinset rows v).filter
              (fun u => s(w, u) ∈ edgeFinset rows)).card
            ≤ ((neighborFinset rows v).erase w).card :=
              Finset.card_le_card hsub
          _ = (neighborFinset rows v).card - 1 := by
              rw [Finset.card_erase_of_mem hw]
    _ = (neighborFinset rows v).card * ((neighborFinset rows v).card - 1) := by
        rw [Finset.sum_const, smul_eq_mul]

/-! ### Betweenness bounds -/

theorem pairDep_nonneg (rows : List Row) (v : String) (st : String × String) :
    0 ≤ pairDep rows v st := by
  rw [pairDep]
  split
  · exact le_refl 0
  · positivity

theorem pairDep_le_one (rows : List Row) (v : String) (st : String × String) :
    pairDep rows v st ≤ 1 := by
  rw [pairDep]
  split
  · exact zero_le_one
  · rename_i h
    rw [div_le_one (by positivity)]
    exact_mod_cast Finset.card_filter_le _ _

theorem rawBetweenness_nonneg (rows : List Row) (v : String) :
    0 ≤ rawBetweenness rows v := by
  rw [rawBetweenness]
  apply Finset.sum_nonneg
  intro s _
  apply Finset.sum_nonneg
  intro t _
  split
  · exact pairDep_nonneg rows v (s, t)
  · exact le_refl 0

theorem rawBetweenness_eq_zero_of_le_two {rows : List Row} {v : String}
    (hv : v ∈ nodesOf rows) (hn : (nodesOf rows).length ≤ 2) :
    rawBetweenness rows v = 0 := by
  rw [rawBetweenness]
  apply Finset.sum_eq_zero
  intro s hs
  apply Finset.sum_eq_zero
  intro t ht
  rw [if_neg]
  rintro ⟨hsv, htv, hst⟩
  have hsub : ({v, s, t} : Finset String) ⊆ nodeFinset rows := by
    intro x hx
    rw [Finset.mem_insert, Finset.mem_insert, Finset.mem_singleton] at hx
    rcases hx with rfl | rfl | rfl
    · rw [nodeFinset, List.mem_toFinset]
      exact hv
    · exact hs
    · exact ht
  have hc3 : ({v, s, t} : Finset String).card = 3 := by
    rw [Finset.card_insert_of_not_mem (by simp [Ne.symm hsv, Ne.symm htv]),
      Finset.card_insert_of_not_mem (by simp [hst]), Finset.card_singleton]
  have hle := Finset.card_le_card hsub
  rw [hc3, card_nodeFinset] at hle
  omega

theorem rawBetweenness_le {rows : List Row} {v : String}
    (hv : v ∈ nodesOf rows) :
    rawBetweenness rows v
      ≤ (((nodesOf rows).length : ℚ) - 1) * (((nodesOf rows).length : ℚ) - 2) := by
  have hvV : v ∈ nodeFinset rows := by
    rw [nodeFinset, List.mem_toFinset]
    exact hv
  have hinner : ∀ s ∈ nodeFinset rows,
      (∑ t ∈ nodeFinset rows,
          if s ≠ v ∧ t ≠ v ∧ s ≠ t then pairDep rows v (s, t) else 0)
        ≤ (if s = v then 0 else ((nodesOf rows).length : ℚ) - 2) := by
    intro s hs
    by_cases hsv : s = v
    · rw [if_pos hsv]
      apply le_of_eq
      apply Finset.sum_eq_zero
      intro t _
      rw [if_neg]
      rintro ⟨hc, -, -⟩
      exact hc hsv
    · rw [if_neg hsv]
      have h2n : 2 ≤ (nodesOf rows).length := by
        have hsub : ({v, s} : Finset String) ⊆ nodeFinset rows := by
          intro x hx
          rw [Finset.mem_insert, Finset.mem_singleton] at hx
          rcases hx with rfl | rfl
          · exact hvV
          · exact hs
        have hle := Finset.card_le_card hsub
        rw [Finset.card_insert_of_not_mem (by simp [Ne.symm hsv]),
          Finset.card_singleton, card_nodeFinset] at hle
        exact hle
      calc
        (∑ t ∈ nodeFinset rows,
            if s ≠ v ∧ t ≠ v ∧ s ≠ t then pairDep rows v (s, t) else 0)
          ≤ ∑ t ∈ nodeFinset rows,
              (if s ≠ v ∧ t ≠ v ∧ s ≠ t then (1 : ℚ) else 0) := by
            apply Finset.sum_le_sum
            intro t _
            split
            · exact pairDep_le_one rows v (s, t)
            · exact le_refl 0
        _ = (((nodeFinset rows).filter
              (fun t => s ≠ v ∧ t ≠ v ∧ s ≠ t)).card : ℚ) := by
            rw [Finset.sum_boole]
        _ ≤ ((((nodeFinset rows).erase v).erase s).card : ℚ) := by
            have hsub : (nodeFinset rows).filter (fun t => s ≠ v ∧ t ≠ v ∧ s ≠ t)
                ⊆ ((nodeFinset rows).erase v).erase s := by
              intro t htm
              rw [Finset.mem_filter] at htm
              rw [Finset.mem_erase, Finset.mem_erase]
              exact ⟨fun hc => htm.2.2.2 hc.symm, htm.2.2.1, htm.1⟩
            exact_mod_cast Finset.card_le_card hsub
        _ = ((nodesOf rows).length : ℚ) - 2 := by
            rw [Finset.card_erase_of_mem
                (by rw [Finset.mem_erase]; exact ⟨hsv, hs⟩),
              Finset.card_erase_of_mem hvV, card_nodeFinset, Nat.sub_sub,
              Nat.cast_sub h2n]
            norm_num
  calc
    rawBetweenness rows v
      ≤ ∑ s ∈ nodeFinset rows,
          (if s = v then 0 else ((nodesOf rows).length : ℚ) - 2) := by
        rw [rawBetweenness]
        exact Finset.sum_le_sum hinner
    _ = (((nodesOf rows).length : ℚ) - 1) * (((nodesOf rows).length : ℚ) - 2) := by
        rw [← Finset.add_sum_erase _ _ hvV, if_pos rfl, zero_add]
        rw [Finset.sum_congr rfl
          (fun s hs => if_neg (Finset.ne_of_mem_erase hs))]
        rw [Finset.sum_const, Finset.card_erase_of_mem hvV, card_nodeFinset]
        have h1n : 1 ≤ (nodesOf rows).length :=
          List.length_pos.mpr (List.ne_nil_of_mem hv)
        rw [nsmul_eq_mul, Nat.cast_sub h1n]
        norm_num

theorem betweenness_nonneg (rows : List Row) (v : String) :
    0 ≤ betweenness rows v := by
  rw [betweenness]
  split
  · exact rawBetweenness_nonneg rows v
  · rename_i hn
    have h3 : 3 ≤ (nodesOf rows).length := by omega
    have h3q : (3 : ℚ) ≤ ((nodesOf rows).length : ℚ) := by exact_mod_cast h3
    apply div_nonneg (rawBetweenness_nonneg rows v)
    nlinarith

theorem betweenness_le_one {rows : List Row} {v : String}
    (hv : v ∈ nodesOf rows) : betweenness rows v ≤ 1 := by
  rw [betweenness]
  split
  · rename_i hn
    rw [rawBetweenness_eq_zero_of_le_two hv hn]
    exact zero_le_one
  · rename_i hn
    have h3 : 3 ≤ (nodesOf rows).length := by omega
    have h3q : (3 : ℚ) ≤ ((nodesOf rows).length : ℚ) := by exact_mod_cast h3
    rw [div_le_one (by nlinarith)]
    exact rawBetweenness_le hv

/-! ### Facts about the adaptive filter -/

theorem filterStage_true_eq {rows : List Row} {t : ℚ}
    (h : chosenThreshold rows = some t) :
    filterStage true rows = filterAt rows t := by
  rw [filterStage, if_pos rfl, h]

theorem not_mem_filterAt_of_score_eq {rows : List Row} {r : Row} {t : ℚ}
    (h : r.score = some t) : r ∉ filterAt rows t := by
  intro hc
  rw [filterAt, List.mem_filter] at hc
  have := hc.2
  rw [rowPass, h] at this
  simp at this

theorem not_mem_filterAt_of_score_none {rows : List Row} {r : Row} {t : ℚ}
    (h : r.score = none) : r ∉ filterAt rows t := by
  intro hc
  rw [filterAt, List.mem_filter] at hc
  have := hc.2
  rw [rowPass, h] at this
  simp at this

/-! ### Claims -/

/-- C1: the claim states that when every candidate threshold yields an empty
filtered subset, the pipeline hands an empty edge set downstream and
terminates with the single explanatory record.  The code does not do this:
the `for`-`else` branch only prints a warning and leaves `df` holding all
original rows, so for the input with the single row `(X, Y, score 0)` every
threshold filters to empty, yet the pipeline builds a graph from the
unfiltered row and does not produce the explanatory record.  This evaluation
exhibits the divergence. -/
theorem claim_C1_eval :
    (∀ t ∈ thresholds, filterAt [⟨"X", "Y", some 0⟩] t = [])
  ∧ filterStage true [⟨"X", "Y", some 0⟩] = [⟨"X", "Y", some 0⟩]
  ∧ runPipeline true [⟨"X", "Y", some 0⟩]
      = PipeOutput.report [⟨"X", "Y", some 0⟩]
  ∧ runPipeline true [⟨"X", "Y", some 0⟩] ≠ PipeOutput.emptyReport := by
  decide

/-- C2 (counterexample): for the edge sequence with the single weighted edge
`(X, Y, score 0)`, no candidate threshold admits any edge, and the filter's
output (all rows, via the `for`-`else` fallback) is not the `weight > t`
subset for any candidate threshold `t`; so "for every edge sequence
containing at least one weighted edge the output is exactly the subset
`weight > t` for the first qualifying threshold" is false as stated. -/
theorem claim_C2_counterexample :
    (∃ r ∈ ([⟨"X", "Y", some 0⟩] : List Row), r.score.isSome)
  ∧ ∀ t ∈ thresholds,
      filterStage true [⟨"X", "Y", some 0⟩] ≠ filterAt [⟨"X", "Y", some 0⟩] t := by
  decide

/-- C2 (amended): for every edge sequence containing at least one edge of
weight strictly greater than `0` (equivalently, at least one candidate
threshold admits an edge), the filter selects the first threshold `t` of
`[700, 400, 0]` whose subset is nonempty and outputs exactly the rows with
`weight > t`; rows whose weight equals `t` are excluded (strict `>`). -/
theorem claim_C2_amended (rows : List Row)
    (h : ∃ r ∈ rows, ∃ w, r.score = some w ∧ 0 < w) :
    ∃ t pre post,
      thresholds = pre ++ t :: post
      ∧ (∀ t2 ∈ pre, filterAt rows t2 = [])
      ∧ filterAt rows t ≠ []
      ∧ filterStage true rows = filterAt rows t
      ∧ ∀ r ∈ rows, r.score = some t → r ∉ filterStage true rows := by
  have h0 : filterAt rows 0 ≠ [] := by
    obtain ⟨r, hr, w, hw, hpos⟩ := h
    apply List.ne_nil_of_mem (a := r)
    rw [filterAt, List.mem_filter]
    exact ⟨hr, by rw [rowPass, hw]; simpa using hpos⟩
  by_cases h7 : filterAt rows 700 = []
  · by_cases h4 : filterAt rows 400 = []
    · refine ⟨0, [700, 400], [], rfl, ?_, h0, ?_, ?_⟩
      · intro t2 ht2
        rcases List.mem_pair.mp ht2 with rfl | rfl
        · exact h7
        · exact h4
      · apply filterStage_true_eq
        rw [chosenThreshold, thresholds]
        rw [List.find?_cons_of_neg, List.find?_cons_of_neg,
          List.find?_cons_of_pos]
        · simpa [List.isEmpty_iff] using h0
        · simp [List.isEmpty_iff, h4]
        · simp [List.isEmpty_iff, h7]
      · intro r hr hscore
        have heq : filterStage true rows = filterAt rows 0 := by
          apply filterStage_true_eq
          rw [chosenThreshold, thresholds]
          rw [List.find?_cons_of_neg, List.find?_cons_of_neg,
            List.find?_cons_of_pos]
          · simpa [List.isEmpty_iff] using h0
          · simp [List.isEmpty_iff, h4]
          · simp [List.isEmpty_iff, h7]
        rw [heq]
        exact not_mem_filterAt_of_score_eq hscore
    · refine ⟨400, [700], [0], rfl, ?_, h4, ?_, ?_⟩
      · intro t2 ht2
        rw [List.mem_singleton] at ht2
        subst ht2
        exact h7
      · apply filterStage_true_eq
        rw [chosenThreshold, thresholds]
        rw [List.find?_cons_of_neg, List.find?_cons_of_pos]
        · simpa [List.isEmpty_iff] using h4
        · simp [List.isEmpty_iff, h7]
      · intro r hr hscore
        have heq : filterStage true rows = filterAt rows 400 := by
          apply filterStage_true_eq
          rw [chosenThreshold, thresholds]
          rw [List.find?_cons_of_neg, List.find?_cons_of_pos]
          · simpa [List.isEmpty_iff] using h4
          · simp [List.isEmpty_iff, h7]
        rw [heq]
        exact not_mem_filterAt_of_score_eq hscore
  · refine ⟨700, [], [400, 0], rfl, by simp, h7, ?_, ?_⟩
    · apply filterStage_true_eq
      rw [chosenThreshold, thresholds]
      rw [List.find?_cons_of_pos]
      simpa [List.isEmpty_iff] using h7
    · intro r hr hscore
      have heq : filterStage true rows = filterAt rows 700 := by
        apply filterStage_true_eq
        rw [chosenThreshold, thresholds]
        rw [List.find?_cons_of_pos]
        simpa [List.isEmpty_iff] using h7
      rw [heq]
      exact not_mem_filterAt_of_score_eq hscore

/-- Witness for the amended C2: on `[(X, Y, 500), (Z, W, 100)]` the first
qualifying threshold is `400` and exactly the first row survives. -/
theorem claim_C2_witness :
    (∃ r ∈ ([⟨"X", "Y", some 500⟩, ⟨"Z", "W", some 100⟩] : List Row),
        ∃ w, r.score = some w ∧ 0 < w)
  ∧ (∃ t pre post,
      thresholds = pre ++ t :: post
      ∧ (∀ t2 ∈ pre,
          filterAt [⟨"X", "Y", some 500⟩, ⟨"Z", "W", some 100⟩] t2 = [])
      ∧ filterAt [⟨"X", "Y", some 500⟩, ⟨"Z", "W", some 100⟩] t ≠ []
      ∧ filterStage true [⟨"X", "Y", some 500⟩, ⟨"Z", "W", some 100⟩]
          = filterAt [⟨"X", "Y", some 500⟩, ⟨"Z", "W", some 100⟩] t
      ∧ ∀ r ∈ ([⟨"X", "Y", some 500⟩, ⟨"Z", "W", some 100⟩] : List Row),
          r.score = some t →
            r ∉ filterStage true [⟨"X", "Y", some 500⟩, ⟨"Z", "W", some 100⟩])
  ∧ filterStage true [⟨"X", "Y", some 500⟩, ⟨"Z", "W", some 100⟩]
      = [⟨"X", "Y", some 500⟩] :=
  ⟨by decide, claim_C2_amended _ (by decide), by decide⟩

/-- C9: without a score column the filter section is skipped and every row
is passed through unchanged to the graph builder (the `df.empty` check then
only fires for an empty input). -/
theorem claim_C9 (rows : List Row) :
    filterStage false rows = rows
  ∧ runPipeline false rows
      = (if rows.isEmpty then PipeOutput.emptyReport
          else PipeOutput.report rows) :=
  ⟨rfl, rfl⟩

/-- C10 (counterexample): a scoreless edge can reach the output of the
filtering section: with the single row `(X, Y, no score)` every threshold
yields an empty subset, the `for`-`else` fallback keeps all rows, and the
scoreless row appears in the filter's output even though a score column
exists. -/
theorem claim_C10_counterexample :
    ((⟨"X", "Y", none⟩ : Row).score = none)
  ∧ (⟨"X", "Y", none⟩ : Row) ∈ filterStage true [⟨"X", "Y", none⟩] := by
  decide

/-- C10 (amended): when a score column exists, a row with a missing score
fails the comparison `weight > t` at every candidate threshold, so it is
excluded from every per-threshold subset; consequently, whenever some
candidate threshold yields a nonempty subset (so the filter actually selects
a threshold), a scoreless row cannot appear in the filter's output.  Only
when every threshold yields an empty subset does the `for`-`else` fallback
pass all rows (scoreless ones included) through. -/
theorem claim_C10_amended (rows : List Row) (r : Row) (hr : r.score = none) :
    (∀ t ∈ thresholds, r ∉ filterAt rows t)
  ∧ ((∃ t ∈ thresholds, filterAt rows t ≠ []) →
      r ∉ filterStage true rows) := by
  constructor
  · exact fun t _ => not_mem_filterAt_of_score_none hr
  · intro hex
    have hsome : (chosenThreshold rows).isSome := by
      rw [chosenThreshold, List.find?_isSome]
      obtain ⟨t, ht, hne⟩ := hex
      exact ⟨t, ht, by simpa [List.isEmpty_iff] using hne⟩
    obtain ⟨t0, ht0⟩ := Option.isSome_iff_exists.mp hsome
    rw [filterStage_true_eq ht0]
    exact not_mem_filterAt_of_score_none hr

/-- Witness for the amended C10: with rows `[(X, Y, none), (A, B, 800)]`
threshold `700` is selected and the scoreless row is excluded. -/
theorem claim_C10_witness :
    ((⟨"X", "Y", none⟩ : Row).score = none)
  ∧ (∀ t ∈ thresholds,
      (⟨"X", "Y", none⟩ : Row)
        ∉ filterAt [⟨"X", "Y", none⟩, ⟨"A", "B", some 800⟩] t)
  ∧ ((∃ t ∈ thresholds,
        filterAt [⟨"X", "Y", none⟩, ⟨"A", "B", some 800⟩] t ≠ []) →
      (⟨"X", "Y", none⟩ : Row)
        ∉ filterStage true [⟨"X", "Y", none⟩, ⟨"A", "B", some 800⟩])
  ∧ filterStage true [⟨"X", "Y", none⟩, ⟨"A", "B", some 800⟩]
      = [⟨"A", "B", some 800⟩] :=
  ⟨rfl, (claim_C10_amended _ _ rfl).1, (claim_C10_amended _ _ rfl).2, by decide⟩

/-- C3 (counterexample): `networkx` keeps self-loop edges, so the graph
built from the single row `(A, A)` contains the self-loop edge `{A, A}` —
the claim that the built graph never contains a self-loop is false. -/
theorem claim_C3_counterexample :
    s("A", "A") ∈ edgeFinset [⟨"A", "A", none⟩]
  ∧ diagB (s("A", "A")) = true := by
  decide

/-- C3 (amended): the graph builder stores each unordered node pair at most
once — appending a row whose unordered endpoint pair is already an edge
(also a reversed `(B, A)` duplicate) changes neither the edge set, nor the
node list, nor any degree or neighbor count — but self-loop rows are
retained as self-loop edges, not dropped. -/
theorem claim_C3_amended :
    (∀ (rows : List Row) (r : Row), s(r.a, r.b) ∈ edgeFinset rows →
        edgeFinset (rows ++ [r]) = edgeFinset rows
      ∧ nodesOf (rows ++ [r]) = nodesOf rows
      ∧ (∀ v, degreeOf (rows ++ [r]) v = degreeOf rows v)
      ∧ (∀ v, neighborCount (rows ++ [r]) v = neighborCount rows v))
  ∧ (∀ (rows : List Row) (r : Row), r ∈ rows → s(r.a, r.b) ∈ edgeFinset rows)
  ∧ (∀ (rows : List Row) (r : Row), r ∈ rows → r.a = r.b →
      s(r.a, r.a) ∈ edgeFinset rows ∧ diagB (s(r.a, r.a)) = true) := by
  have hedge : ∀ (rows : List Row) (r : Row), r ∈ rows →
      s(r.a, r.b) ∈ edgeFinset rows :=
    fun rows r hr => mem_edgeFinset.mpr ⟨r, hr, rfl⟩
  refine ⟨?_, hedge, ?_⟩
  · intro rows r hmem
    have hE : edgeFinset (rows ++ [r]) = edgeFinset rows := by
      simp only [edgeFinset, List.map_append, List.toFinset_append]
      have h1 : (List.map (fun r => s(r.a, r.b)) [r]).toFinset
          = {s(r.a, r.b)} := by simp
      rw [h1, Finset.union_eq_left, Finset.singleton_subset_iff]
      exact hmem
    have hend := endpoints_mem_nodes hmem
    have haddN : ∀ (acc : List String) (x : String), x ∈ acc →
        addNode acc x = acc := by
      intro acc x hx
      rw [addNode, if_pos hx]
    have hN : nodesOf (rows ++ [r]) = nodesOf rows := by
      rw [nodesOf, List.foldl_append]
      show addNode (addNode (nodesOf rows) r.a) r.b = nodesOf rows
      rw [haddN _ _ hend.1, haddN _ _ hend.2]
    refine ⟨hE, hN, ?_, ?_⟩
    · intro v
      simp only [degreeOf, neighborCount, neighborFinset, nodeFinset, hE, hN]
    · intro v
      simp only [neighborCount, neighborFinset, nodeFinset, hE, hN]
  · intro rows r hr hab
    constructor
    · nth_rewrite 2 [hab]
      exact hedge rows r hr
    · simp

/-- Witness for the amended C3: appending the reversed duplicate `(B, A)`
to `[(A, B), (A, A)]` changes nothing, every row of that list is an edge,
and the self-loop row `(A, A)` yields a retained self-loop edge. -/
theorem claim_C3_witness :
    s((⟨"B", "A", some 3⟩ : Row).a, (⟨"B", "A", some 3⟩ : Row).b)
        ∈ edgeFinset [⟨"A", "B", none⟩, ⟨"A", "A", none⟩]
  ∧ edgeFinset ([⟨"A", "B", none⟩, ⟨"A", "A", none⟩] ++ [⟨"B", "A", some 3⟩])
      = edgeFinset [⟨"A", "B", none⟩, ⟨"A", "A", none⟩]
  ∧ (∀ v, degreeOf ([⟨"A", "B", none⟩, ⟨"A", "A", none⟩] ++ [⟨"B", "A", some 3⟩]) v
      = degreeOf [⟨"A", "B", none⟩, ⟨"A", "A", none⟩] v)
  ∧ s("A", "A") ∈ edgeFinset [⟨"A", "B", none⟩, ⟨"A", "A", none⟩] :=
  ⟨by decide,
    (claim_C3_amended.1 _ _ (by decide)).1,
    (claim_C3_amended.1 _ _ (by decide)).2.2.1,
    (claim_C3_amended.2.2 _ (⟨"A", "A", none⟩ : Row) (by decide) rfl).1⟩

/-- C6: the handshake lemma holds for every built graph — the degrees
(as computed by `G.degree`, a self-loop counting twice) sum to exactly twice
the number of edges. -/
theorem claim_C6 (rows : List Row) :
    ∑ v ∈ nodeFinset rows, degreeOf rows v = 2 * (edgeFinset rows).card :=
  sum_degree_eq_twice_card_edges rows

/-- C8 (counterexample): on the self-loop input `(A, A)` the recomputed
neighbor count of `A` is `1` while its degree is `2`, so the two sort keys
are not numerically identical for every row — the built graph is not always
a simple graph. -/
theorem claim_C8_counterexample :
    neighborCount [⟨"A", "A", none⟩] ("A") = 1
  ∧ degreeOf [⟨"A", "A", none⟩] ("A") = 2 := by
  decide

/-- C8 (amended): for inputs with no self-loop row (so the built graph is a
simple graph), the independently recomputed neighbor count equals the degree
for every node, and hence the two sort keys of the ranker agree on every row
of the summary table. -/
theorem claim_C8_amended (rows : List Row) (H : ∀ r ∈ rows, r.a ≠ r.b) :
    (∀ v, neighborCount rows v = degreeOf rows v)
  ∧ ∀ row ∈ summaryRows rows, row.interactions = row.degree := by
  have h1 : ∀ v, neighborCount rows v = degreeOf rows v :=
    fun v => (degree_eq_neighborCount_of_loopless H v).symm
  refine ⟨h1, ?_⟩
  intro row hrow
  rw [summaryRows, List.mem_map] at hrow
  obtain ⟨v, -, rfl⟩ := hrow
  exact h1 v

/-- Witness for the amended C8 on the loopless input `[(A, B), (B, C)]`. -/
theorem claim_C8_witness :
    (∀ r ∈ ([⟨"A", "B", none⟩, ⟨"B", "C", none⟩] : List Row), r.a ≠ r.b)
  ∧ (∀ v, neighborCount [⟨"A", "B", none⟩, ⟨"B", "C", none⟩] v
      = degreeOf [⟨"A", "B", none⟩, ⟨"B", "C", none⟩] v) :=
  ⟨by decide, (claim_C8_amended _ (by decide)).1⟩

/-- C5 (counterexample): on the input `[(A, A), (A, B)]` the node `A` has
degree `3 ≥ 2` (its self-loop counts twice), the edges among its neighbor
set `{A, B}` number `2`, so the claimed value is `2 / 3`, but `networkx`
computes clustering `0` (self-loops are ignored and `A` has a single proper
neighbor) — the claimed formula in terms of the degree is false. -/
theorem claim_C5_counterexample :
    2 ≤ degreeOf [⟨"A", "A", none⟩, ⟨"A", "B", none⟩] ("A")
  ∧ clustering [⟨"A", "A", none⟩, ⟨"A", "B", none⟩] ("A")
      ≠ (edgesWithin [⟨"A", "A", none⟩, ⟨"A", "B", none⟩]
            (neighborFinset [⟨"A", "A", none⟩, ⟨"A", "B", none⟩] ("A")) : ℚ)
          / ((degreeOf [⟨"A", "A", none⟩, ⟨"A", "B", none⟩] ("A") : ℚ)
              * ((degreeOf [⟨"A", "A", none⟩, ⟨"A", "B", none⟩] ("A") : ℚ) - 1)
              / 2) := by
  constructor
  · decide
  · have h0 : clustering [⟨"A", "A", none⟩, ⟨"A", "B", none⟩] ("A") = 0 := by
      rw [clustering, if_pos (by decide)]
    have h1 : edgesWithin [⟨"A", "A", none⟩, ⟨"A", "B", none⟩]
        (neighborFinset [⟨"A", "A", none⟩, ⟨"A", "B", none⟩] ("A")) = 2 := by
      decide
    have h2 : degreeOf [⟨"A", "A", none⟩, ⟨"A", "B", none⟩] ("A") = 3 := by
      decide
    rw [h0, h1, h2]
    norm_num

/-- C5 (amended): for graphs built from rows without self-loops, every node
`v` of degree `k ≥ 2` has clustering coefficient equal to the number of
edges among `v`'s neighbors divided by `k (k - 1) / 2`; the coefficient
always lies in `[0, 1]`; and every node of degree `< 2` has clustering
coefficient exactly `0`. -/
theorem claim_C5_amended (rows : List Row) (H : ∀ r ∈ rows, r.a ≠ r.b)
    (v : String) :
    (2 ≤ degreeOf rows v →
      clustering rows v
        = (edgesWithin rows (neighborFinset rows v) : ℚ)
          / ((degreeOf rows v : ℚ) * ((degreeOf rows v : ℚ) - 1) / 2))
  ∧ 0 ≤ clustering rows v ∧ clustering rows v ≤ 1
  ∧ (degreeOf rows v < 2 → clustering rows v = 0) := by
  have hd : degreeOf rows v = (neighborFinset rows v).card :=
    degree_eq_neighborCount_of_loopless H v
  have hcstar : (nbrsStar rows v).card = (neighborFinset rows v).card := by
    rw [nbrsStar_eq_neighborFinset_of_loopless H]
  have htw : triangles2 rows v
      = 2 * edgesWithin rows (neighborFinset rows v) :=
    triangles2_eq_twice_edgesWithin_of_loopless H v
  have htle : triangles2 rows v
      ≤ (neighborFinset rows v).card * ((neighborFinset rows v).card - 1) :=
    triangles2_le_of_loopless H v
  by_cases ht : triangles2 rows v = 0
  · have h0 : clustering rows v = 0 := by rw [clustering, if_pos ht]
    have hm0 : edgesWithin rows (neighborFinset rows v) = 0 := by omega
    refine ⟨?_, by rw [h0], by rw [h0]; exact zero_le_one, fun _ => h0⟩
    intro _
    rw [h0, hm0]
    norm_num
  · have hm1 : 1 ≤ triangles2 rows v := Nat.one_le_iff_ne_zero.mpr ht
    have hc2 : 2 ≤ (neighborFinset rows v).card := by
      by_contra hcc
      push_neg at hcc
      interval_cases hcard : (neighborFinset rows v).card <;> omega
    have hcast : (((neighborFinset rows v).card
          * ((neighborFinset rows v).card - 1) : ℕ) : ℚ)
        = ((neighborFinset rows v).card : ℚ)
          * (((neighborFinset rows v).card : ℚ) - 1) := by
      push_cast [Nat.cast_sub (by omega : 1 ≤ (neighborFinset rows v).card)]
      ring
    have hc2q : (2 : ℚ) ≤ ((neighborFinset rows v).card : ℚ) := by
      exact_mod_cast hc2
    have hDpos : (0 : ℚ) < ((neighborFinset rows v).card : ℚ)
        * (((neighborFinset rows v).card : ℚ) - 1) := by nlinarith
    have hclu : clustering rows v
        = (triangles2 rows v : ℚ)
          / (((neighborFinset rows v).card : ℚ)
              * (((neighborFinset rows v).card : ℚ) - 1)) := by
      rw [clustering, if_neg ht, hcstar]
    have htleq : (triangles2 rows v : ℚ)
        ≤ ((neighborFinset rows v).card : ℚ)
          * (((neighborFinset rows v).card : ℚ) - 1) := by
      rw [← hcast]
      exact_mod_cast htle
    refine ⟨?_, ?_, ?_, ?_⟩
    · intro _
      rw [hclu, htw, hd]
      push_cast
      rw [div_div_eq_mul_div]
      ring
    · rw [hclu]
      positivity
    · rw [hclu, div_le_one hDpos]
      exact htleq
    · intro h2
      rw [hd] at h2
      omega

/-- Witness for the amended C5 at the triangle graph: each node has degree 2
and clustering exactly 1, within bounds. -/
theorem claim_C5_witness :
    (∀ r ∈ ([⟨"A", "B", none⟩, ⟨"B", "C", none⟩, ⟨"C", "A", none⟩] : List Row),
        r.a ≠ r.b)
  ∧ ((2 ≤ degreeOf [⟨"A", "B", none⟩, ⟨"B", "C", none⟩, ⟨"C", "A", none⟩] ("A") →
      clustering [⟨"A", "B", none⟩, ⟨"B", "C", none⟩, ⟨"C", "A", none⟩] ("A")
        = (edgesWithin [⟨"A", "B", none⟩, ⟨"B", "C", none⟩, ⟨"C", "A", none⟩]
              (neighborFinset
                [⟨"A", "B", none⟩, ⟨"B", "C", none⟩, ⟨"C", "A", none⟩]
                ("A")) : ℚ)
          / ((degreeOf [⟨"A", "B", none⟩, ⟨"B", "C", none⟩, ⟨"C", "A", none⟩]
                ("A") : ℚ)
              * ((degreeOf
                    [⟨"A", "B", none⟩, ⟨"B", "C", none⟩, ⟨"C", "A", none⟩]
                    ("A") : ℚ) - 1) / 2))
    ∧ 0 ≤ clustering [⟨"A", "B", none⟩, ⟨"B", "C", none⟩, ⟨"C", "A", none⟩] ("A")
    ∧ clustering [⟨"A", "B", none⟩, ⟨"B", "C", none⟩, ⟨"C", "A", none⟩] ("A") ≤ 1
    ∧ (degreeOf [⟨"A", "B", none⟩, ⟨"B", "C", none⟩, ⟨"C", "A", none⟩] ("A") < 2 →
        clustering [⟨"A", "B", none⟩, ⟨"B", "C", none⟩, ⟨"C", "A", none⟩] ("A")
          = 0))
  ∧ clustering [⟨"A", "B", none⟩, ⟨"B", "C", none⟩, ⟨"C", "A", none⟩] ("A") = 1 := by
  refine ⟨by decide, claim_C5_amended _ (by decide) _, ?_⟩
  have h1 : triangles2 [⟨"A", "B", none⟩, ⟨"B", "C", none⟩, ⟨"C", "A", none⟩]
      ("A") = 2 := by decide
  have h2 : (nbrsStar [⟨"A", "B", none⟩, ⟨"B", "C", none⟩, ⟨"C", "A", none⟩]
      ("A")).card = 2 := by decide
  rw [clustering, if_neg (by rw [h1]; exact two_ne_zero), h1, h2]
  norm_num

/-- C4: for every node `v` of the built graph, the normalized betweenness
centrality lies in `[0, 1]`; every node of a graph with fewer than 3 nodes
gets betweenness `0`; for `n ≥ 3` nodes the value equals the half of the
ordered pair-dependency accumulation (i.e. the sum over unordered pairs
`{s, t}` with `s, t ≠ v` of `sigma(s,t|v)/sigma(s,t)`) divided by
`(n-1)(n-2)/2`; and a pair with no connecting path contributes zero rather
than raising an error. -/
theorem claim_C4 (rows : List Row) (v : String) (hv : v ∈ nodesOf rows) :
    (0 ≤ betweenness rows v ∧ betweenness rows v ≤ 1)
  ∧ ((nodesOf rows).length < 3 → betweenness rows v = 0)
  ∧ (3 ≤ (nodesOf rows).length →
      betweenness rows v
        = ((1 / 2) * rawBetweenness rows v)
          / ((((nodesOf rows).length : ℚ) - 1)
              * (((nodesOf rows).length : ℚ) - 2) / 2))
  ∧ (∀ st : String × String, sigma rows st = 0 → pairDep rows v st = 0) := by
  refine ⟨⟨betweenness_nonneg rows v, betweenness_le_one hv⟩, ?_, ?_, ?_⟩
  · intro hn
    rw [betweenness, if_pos (by omega),
      rawBetweenness_eq_zero_of_le_two hv (by omega)]
  · intro h3
    rw [betweenness, if_neg (by omega)]
    have h3q : (3 : ℚ) ≤ ((nodesOf rows).length : ℚ) := by exact_mod_cast h3
    have hne1 : (((nodesOf rows).length : ℚ) - 1) ≠ 0 := by nlinarith
    have hne2 : (((nodesOf rows).length : ℚ) - 2) ≠ 0 := by nlinarith
    field_simp
  · intro st h0
    rw [pairDep, if_pos h0]

/-- Witness for C4 at the path graph `A - B - C`: `B` is an internal node,
the unique shortest `A`-`C` path passes through `B`, and the disconnected
pair fact is instantiated as well. -/
theorem claim_C4_witness :
    ("B") ∈ nodesOf [⟨"A", "B", none⟩, ⟨"B", "C", none⟩]
  ∧ sigma [⟨"A", "B", none⟩, ⟨"B", "C", none⟩] (("A"), ("C")) = 1
  ∧ sigmaThrough [⟨"A", "B", none⟩, ⟨"B", "C", none⟩] ("B") (("A"), ("C")) = 1
  ∧ ((0 ≤ betweenness [⟨"A", "B", none⟩, ⟨"B", "C", none⟩] ("B")
      ∧ betweenness [⟨"A", "B", none⟩, ⟨"B", "C", none⟩] ("B") ≤ 1)
    ∧ ((nodesOf [⟨"A", "B", none⟩, ⟨"B", "C", none⟩]).length < 3 →
        betweenness [⟨"A", "B", none⟩, ⟨"B", "C", none⟩] ("B") = 0)
    ∧ (3 ≤ (nodesOf [⟨"A", "B", none⟩, ⟨"B", "C", none⟩]).length →
        betweenness [⟨"A", "B", none⟩, ⟨"B", "C", none⟩] ("B")
          = ((1 / 2) * rawBetweenness [⟨"A", "B", none⟩, ⟨"B", "C", none⟩] ("B"))
            / ((((nodesOf [⟨"A", "B", none⟩, ⟨"B", "C", none⟩]).length : ℚ) - 1)
                * (((nodesOf [⟨"A", "B", none⟩, ⟨"B", "C", none⟩]).length : ℚ)
                    - 2) / 2))
    ∧ (∀ st : String × String,
        sigma [⟨"A", "B", none⟩, ⟨"B", "C", none⟩] st = 0 →
          pairDep [⟨"A", "B", none⟩, ⟨"B", "C", none⟩] ("B") st = 0)) :=
  ⟨by decide, by decide, by decide, claim_C4 _ _ (by decide)⟩

/-- C7: the ranker sorts the summary rows by degree descending with
interaction count descending as secondary key (the sorted table is ordered
under that two-key relation and is a permutation of the full summary), and
the top-5 and top-10 sheets contain exactly `min(5, nodeCount)` and
`min(10, nodeCount)` rows — when fewer nodes exist, all of them are
returned and no error occurs. -/
theorem claim_C7 (rows : List Row) :
    List.Sorted rankRel (summarySorted rows)
  ∧ (summarySorted rows).Perm (summaryRows rows)
  ∧ (summarySorted rows).length = (nodesOf rows).length
  ∧ (topK 5 rows).length = min 5 (nodesOf rows).length
  ∧ (topK 10 rows).length = min 10 (nodesOf rows).length := by
  refine ⟨List.sorted_insertionSort rankRel _,
    List.perm_insertionSort rankRel _, ?_, ?_, ?_⟩
  · rw [summarySorted, (List.perm_insertionSort rankRel _).length_eq,
      summaryRows, List.length_map]
  · rw [topK, List.length_take, (List.perm_insertionSort degRel _).length_eq,
      summaryRows, List.length_map]
  · rw [topK, List.length_take, (List.perm_insertionSort degRel _).length_eq,
      summaryRows, List.length_map]

end PIP
